import Mathlib

/-!
Verification of the `matlabpy` library (file `src/matlabpy/matlabpy.py`),
a thin MATLAB-syntax wrapper around a dense linear-algebra library.

Embedding conventions:
* A 2-D float array is modelled as `Arr := List (List ℚ)`.  Rational numbers
  stand in for IEEE floats (exact-arithmetic idealization); all stored matrix
  entries live in this "float" carrier, mirroring `dtype=float`.
* Python strings are `List Char`; `str.strip`, `str.split`, `str.replace`
  and `float(·)` are modelled by executable functions below.
* A library routine that can raise returns `Option`; `none` is a raised
  exception.
-/

set_option autoImplicit false

namespace Matlabpy

/-! ### Python string primitives -/

/-- Python whitespace (the ASCII part), as used by `str.strip` / `str.split`. -/
def pySpace (c : Char) : Bool :=
  c = ' ' || c = '\t' || c = '\n' || c = '\r' || c = '\x0b' || c = '\x0c'

/-- `s.strip()`: drop whitespace from both ends. -/
def pyStrip (s : List Char) : List Char :=
  ((s.dropWhile pySpace).reverse.dropWhile pySpace).reverse

/-- Auxiliary splitter: first field and remaining fields of a split at
characters satisfying `p` (every separator produces a field boundary). -/
def splitAux (p : Char → Bool) : List Char → List Char × List (List Char)
  | [] => ([], [])
  | c :: t =>
    let r := splitAux p t
    if p c then ([], r.1 :: r.2) else (c :: r.1, r.2)

/-- `s.split(sep)` with a one-character class separator: the list of fields,
empty fields kept (Python `"a;;b".split(";") = ["a","","b"]`, `"".split(";") = [""]`). -/
def splitOnP (p : Char → Bool) (s : List Char) : List (List Char) :=
  (splitAux p s).1 :: (splitAux p s).2

/-- `s.split()` (no argument): split on whitespace runs, no empty fields. -/
def pySplit (s : List Char) : List (List Char) :=
  (splitOnP pySpace s).filter (· ≠ [])

/-! ### `float(·)`: Python numeric-string parsing, restricted to finite
decimal/scientific literals (the forms the matrix literals use). -/

def digitVal (c : Char) : Nat := c.toNat - 48

def digitsVal (ds : List Char) : Nat :=
  ds.foldl (fun a c => 10 * a + digitVal c) 0

/-- Split a leading run of decimal digits. -/
def splitDigits (s : List Char) : List Char × List Char :=
  (s.takeWhile Char.isDigit, s.dropWhile Char.isDigit)

/-- Consume an optional sign; `true` means negative. -/
def parseSign : List Char → Bool × List Char
  | '+' :: t => (false, t)
  | '-' :: t => (true, t)
  | s => (false, s)

/-- Exponent part after `e`/`E`: optional sign then at least one digit. -/
def parseExp (s : List Char) : Option Int :=
  let (neg, s1) := parseSign s
  let (ds, rest) := splitDigits s1
  if ds = [] ∨ rest ≠ [] then none
  else some (if neg then -(digitsVal ds : Int) else (digitsVal ds : Int))

/-- Mantissa: digits, optionally with one decimal point; at least one digit
overall.  Returns the value and the unconsumed remainder. -/
def parseMantissa (s : List Char) : Option (ℚ × List Char) :=
  let (ids, r1) := splitDigits s
  match r1 with
  | '.' :: r2 =>
    let (fds, r3) := splitDigits r2
    if ids = [] ∧ fds = [] then none
    else some ((digitsVal ids : ℚ) + (digitsVal fds : ℚ) / (10 ^ fds.length : ℚ), r3)
  | _ => if ids = [] then none else some ((digitsVal ids : ℚ), r1)

/-- `float(s)` on a finite numeric literal: surrounding whitespace allowed,
optional sign, decimal mantissa, optional scientific exponent.  `none` models
the `ValueError` Python raises on anything else. -/
def pyFloat (s : List Char) : Option ℚ :=
  let t := pyStrip s
  let (neg, s1) := parseSign t
  (parseMantissa s1).bind fun mr =>
    (match mr.2 with
      | [] => some mr.1
      | 'e' :: es => (parseExp es).map fun e => mr.1 * (10 : ℚ) ^ e
      | 'E' :: es => (parseExp es).map fun e => mr.1 * (10 : ℚ) ^ e
      | _ => none).map fun v => if neg then -v else v

/-! ### 2-D arrays -/

/-- A 2-D float array, row-major. -/
abbrev Arr := List (List ℚ)

/-- Column count: length of the first row (0 for no rows). -/
def colsA (a : Arr) : Nat := (a.headD []).length

/-- Rectangularity: every row has the common column count. -/
def rectB (a : Arr) : Bool := a.all fun r => r.length == colsA a

/-- The shape `np.array(data, dtype=float)` gives a list-of-lists: `[]` yields
the 1-D shape `(0,)`, anything else the 2-D shape `(rows, cols)`. -/
def npShape (a : Arr) : List Nat :=
  if a.isEmpty then [0] else [a.length, colsA a]

/-- Entry at zero-based `(i, j)` (defaulting to 0 out of range; statements
always constrain `i`, `j` to be in range). -/
def entry (a : Arr) (i j : Nat) : ℚ :=
  ((a[i]?).bind fun r => r[j]?).getD 0

/-- `np.array(data, dtype=float)` on a list of rows: succeeds exactly on
rectangular input (ragged input raises `ValueError`), returning the rows. -/
def npArray2d (data : List (List ℚ)) : Option Arr :=
  match data with
  | [] => some []
  | r :: rs => if rs.all (fun x => x.length == r.length) then some (r :: rs) else none

/-- Effectful `map` over `Option`: the list-comprehension-with-exceptions
pattern (`[float(x) for x in ...]`). -/
def optMapM {α β : Type} (f : α → Option β) : List α → Option (List β)
  | [] => some []
  | a :: t => (f a).bind fun b => (optMapM f t).map (b :: ·)

/-! ### `mat`: the MATLAB-style literal parser (source lines 171–190) -/

def nlToSemi (c : Char) : Char := if c = '\n' then ';' else c

def commaToSpace (c : Char) : Char := if c = ',' then ' ' else c

def semiB (c : Char) : Bool := c = ';'

/-- The tokens of one (already stripped) row:
`r.replace(",", " ").split()`. -/
def srcTokens (r : List Char) : List (List Char) :=
  pySplit (r.map commaToSpace)

/-- The non-blank rows of the literal, each stripped:
`expr.strip().replace("\n", ";").split(";")`, then per-row `strip`, blank
rows skipped. -/
def srcRows (expr : List Char) : List (List Char) :=
  ((splitOnP semiB ((pyStrip expr).map nlToSemi)).map pyStrip).filter (· ≠ [])

/-- Row values: `[float(x) for x in r.replace(",", " ").split()]`. -/
def rowVals (r : List Char) : Option (List ℚ) :=
  optMapM pyFloat (srcTokens r)

/-- The `data` list built by `mat`'s loop. -/
def matData (expr : List Char) : Option (List (List ℚ)) :=
  optMapM rowVals (srcRows expr)

/-- `mat(expr)`: parse the literal, then `M(data)` = `np.array(data, dtype=float)`. -/
def mat (expr : List Char) : Option Arr :=
  (matData expr).bind npArray2d

/-! ### Spec-side description of the literal grammar (for claim C1/C2):
rows separated by semicolons or newlines, entries separated by spaces or
commas — stated directly on the raw string, independent of `mat`'s
strip/replace/split pipeline. -/

def rowSepB (c : Char) : Bool := c = ';' || c = '\n'

def colSepB (c : Char) : Bool := c = ' ' || c = ','

/-- The non-blank rows of the literal, per the spec's words: split the raw
string at `;`/newline, keep the rows that are not entirely whitespace. -/
def specRows (s : List Char) : List (List Char) :=
  (splitOnP rowSepB s).filter fun r => pyStrip r ≠ []

/-- The tokens of a row, per the spec's words: the maximal runs of
non-separator characters, separators being spaces and commas. -/
def specTokens (r : List Char) : List (List Char) :=
  (splitOnP colSepB r).filter (· ≠ [])

/-- The character class of the literals the C1/C2 claims quantify over:
digits, `.`/`+`/`-`/`e`/`E`, and the separators space, comma, semicolon,
newline. -/
def allowedChar (c : Char) : Bool :=
  decide (c ∈ "0123456789.+-eE ,;\n".toList)

/-- The rows of `mat`'s pipeline, before the global strip is accounted for:
split at `;`/newline, strip each row, keep non-blank rows. -/
def rowsF (s : List Char) : List (List Char) :=
  ((splitOnP rowSepB s).map pyStrip).filter (· ≠ [])

/-! ### NumPy indexing (the cases the wrapper uses: int and slice keys) -/

/-- Normalize a (possibly negative) Python integer index against axis length
`n`; `none` is an `IndexError`. -/
def normIdx (n : Nat) (i : Int) : Option Nat :=
  if 0 ≤ i ∧ i < n then some i.toNat
  else if -(n : Int) ≤ i ∧ i < 0 then some (i + n).toNat
  else none

/-- Clamp one explicit slice endpoint, CPython `PySlice_AdjustIndices` style
(`neg` = the step is negative). -/
def sliceBound (n : Nat) (neg : Bool) (x : Int) : Int :=
  let x := if x < 0 then x + n else x
  if x < 0 then (if neg then -1 else 0)
  else if n ≤ x then (if neg then (n : Int) - 1 else n) else x

/-- Resolve `slice(start, stop, step)` against axis length `n` to concrete
`(lo, hi, step)`; `none` is the zero-step `ValueError`. -/
def resolveSlice (n : Nat) (start stop step : Option Int) : Option (Int × Int × Int) :=
  let st := step.getD 1
  if st = 0 then none
  else
    let neg := st < 0
    let lo := match start with
      | none => if neg then (n : Int) - 1 else 0
      | some x => sliceBound n neg x
    let hi := match stop with
      | none => if neg then -1 else (n : Int)
      | some x => sliceBound n neg x
    some (lo, hi, st)

/-- Indices selected by a resolved upward slice (`st > 0`). -/
def rangeUp (lo hi st : Int) : List Int :=
  let cnt := if hi ≤ lo then 0 else (((hi - lo - 1) / st) + 1).toNat
  (List.range cnt).map fun k => lo + st * k

/-- Indices selected by a resolved downward slice (`st < 0`). -/
def rangeDown (lo hi st : Int) : List Int :=
  let cnt := if lo ≤ hi then 0 else (((lo - hi - 1) / (-st)) + 1).toNat
  (List.range cnt).map fun k => lo + st * k

/-- The axis positions a slice selects (all in `[0, n)` by clamping). -/
def sliceList (n : Nat) (start stop step : Option Int) : Option (List Nat) :=
  (resolveSlice n start stop step).map fun r =>
    (if 0 < r.2.2 then rangeUp r.1 r.2.1 r.2.2 else rangeDown r.1 r.2.1 r.2.2).map Int.toNat

/-- One index argument: a Python int or a slice. -/
inductive Idx
  | int (i : Int)
  | slice (start stop step : Option Int)
deriving DecidableEq

/-- A value produced by indexing a 2-D array. -/
inductive NpVal
  | scalar (x : ℚ)
  | vec (v : List ℚ)
  | arr (m : Arr)
deriving DecidableEq

/-- `a[key]` for a 2-D array and the key forms the wrapper meets:
tuples of at most two int/slice components. -/
def npIndex (a : Arr) (key : List Idx) : Option NpVal :=
  match key with
  | [] => some (.arr a)
  | [.int i] => (normIdx a.length i).bind fun i2 => (a[i2]?).map .vec
  | [.slice s e t] =>
    (sliceList a.length s e t).bind fun is => (optMapM (a[·]?) is).map .arr
  | [.int i, .int j] =>
    (normIdx a.length i).bind fun i2 => (a[i2]?).bind fun row =>
    (normIdx row.length j).bind fun j2 => (row[j2]?).map .scalar
  | [.int i, .slice s e t] =>
    (normIdx a.length i).bind fun i2 => (a[i2]?).bind fun row =>
    (sliceList row.length s e t).bind fun js => (optMapM (row[·]?) js).map .vec
  | [.slice s e t, .int j] =>
    (sliceList a.length s e t).bind fun is => (normIdx (colsA a) j).bind fun j2 =>
    (optMapM (fun i => (a[i]?).bind fun row => row[j2]?) is).map .vec
  | [.slice s e t, .slice s2 e2 t2] =>
    (sliceList a.length s e t).bind fun is => (optMapM (a[·]?) is).bind fun rows =>
    (sliceList (colsA a) s2 e2 t2).bind fun js =>
    (optMapM (fun row => optMapM (fun (j : Nat) => row[j]?) js) rows).map .arr
  | _ => none

/-- The shift `__call__` applies to each argument:
`i - 1 if isinstance(i, int) else i`. -/
def shiftIdx : Idx → Idx
  | .int i => .int (i - 1)
  | .slice s e t => .slice s e t

/-! ### Elementwise and matrix arithmetic (the NumPy routines the wrapper
calls, modelled for matching 2-D shapes; broadcasting is out of scope) -/

def zipGrid (f : ℚ → ℚ → ℚ) (a b : Arr) : Arr :=
  List.zipWith (List.zipWith f) a b

def sameShapeB (a b : Arr) : Bool :=
  rectB a && rectB b && a.length == b.length && colsA a == colsA b

/-- `a + b`. -/
def npAdd (a b : Arr) : Option Arr :=
  if sameShapeB a b then some (zipGrid (· + ·) a b) else none

/-- `a - b`. -/
def npSub (a b : Arr) : Option Arr :=
  if sameShapeB a b then some (zipGrid (· - ·) a b) else none

/-- `a * b` (elementwise). -/
def npMulE (a b : Arr) : Option Arr :=
  if sameShapeB a b then some (zipGrid (· * ·) a b) else none

def dot (r c : List ℚ) : ℚ := (List.zipWith (· * ·) r c).sum

def colOf (b : Arr) (j : Nat) : List ℚ := b.map fun r => (r[j]?).getD 0

/-- The row-by-column product grid. -/
def mulGrid (a b : Arr) : Arr :=
  a.map fun r => (List.range (colsA b)).map fun j => dot r (colOf b j)

/-- `a @ b`: defined exactly when the inner dimensions agree. -/
def npMatmul (a b : Arr) : Option Arr :=
  if rectB a && rectB b && colsA a == b.length then some (mulGrid a b) else none

def identityArr (n : Nat) : Arr :=
  (List.range n).map fun i => (List.range n).map fun j => if j = i then (1 : ℚ) else 0

/-! `np.linalg.inv`: Gauss–Jordan elimination over the exact carrier;
`none` is the `LinAlgError` raised on a singular (or non-square) input. -/

def swapRows (k p : Nat) (rows : List (List ℚ)) : List (List ℚ) :=
  let rk := rows.getD k []
  let rp := rows.getD p []
  (rows.set k rp).set p rk

def pivotStep (k : Nat) (rows : List (List ℚ)) : Option (List (List ℚ)) :=
  match (List.range rows.length).find? (fun i => decide (k ≤ i) && ((rows.getD i []).getD k 0 != 0)) with
  | none => none
  | some p =>
    let rows2 := swapRows k p rows
    let piv := (rows2.getD k []).getD k 0
    let rk := (rows2.getD k []).map (· / piv)
    let rows3 := rows2.set k rk
    some ((List.range rows3.length).map fun i =>
      if i = k then rk
      else
        let ri := rows3.getD i []
        List.zipWith (fun x y => x - ri.getD k 0 * y) ri rk)

def gaussJordan (n : Nat) (rows : List (List ℚ)) : Option (List (List ℚ)) :=
  (List.range n).foldlM (fun rs k => pivotStep k rs) rows

def npInv (a : Arr) : Option Arr :=
  let n := a.length
  if rectB a && colsA a == n then
    let aug := (List.range n).map fun i =>
      a.getD i [] ++ (List.range n).map fun j => if j = i then (1 : ℚ) else 0
    (gaussJordan n aug).map fun rows => rows.map (·.drop n)
  else none

/-- `np.linalg.det` by Laplace expansion (fuel = row count); raises only on
non-square input, returning 0 on singular square input. -/
def detFuel : Nat → List (List ℚ) → ℚ
  | 0, _ => 1
  | _ + 1, [] => 1
  | n + 1, r :: rs =>
    ((List.range r.length).map fun j =>
      (-1 : ℚ) ^ j * (r[j]?).getD 0 * detFuel n (rs.map (·.eraseIdx j))).sum

def npDet (a : Arr) : Option ℚ :=
  if rectB a && colsA a == a.length then some (detFuel a.length a) else none

/-- Iterated matrix product: the `k`-th power of an `n × n` array. -/
def powIter (a : Arr) (n : Nat) : Nat → Arr
  | 0 => identityArr n
  | k + 1 => mulGrid (powIter a n k) a

/-- `np.linalg.matrix_power`: square input; a negative exponent inverts
first and raises the inverse to the absolute value. -/
def npMatrixPower (a : Arr) (p : Int) : Option Arr :=
  if rectB a && colsA a == a.length then
    if 0 ≤ p then some (powIter a a.length p.toNat)
    else (npInv a).map fun ai => powIter ai a.length (-p).toNat
  else none

/-- `a.T` on a 2-D array. -/
def npTranspose (a : Arr) : Arr :=
  (List.range (colsA a)).map fun j => a.map fun r => (r[j]?).getD 0

/-- Complex conjugation restricted to the float carrier (the only dtype the
wrapper constructs) is the identity on every entry. -/
def conjFloat (x : ℚ) : ℚ := x

/-- `a.conj()` on a float array. -/
def npConj (a : Arr) : Arr := a.map fun r => r.map conjFloat

/-- `np.vstack`: 2-D inputs with a common column count, rows concatenated. -/
def npVstack (ls : List Arr) : Option Arr :=
  match ls with
  | [] => none
  | a :: rest =>
    if (a :: rest).all (fun b => rectB b && (colsA b == colsA a)) then
      some (a :: rest).flatten
    else none

/-- `np.hstack`: 2-D inputs with a common row count, columns concatenated. -/
def npHstack (ls : List Arr) : Option Arr :=
  match ls with
  | [] => none
  | a :: rest =>
    if (a :: rest).all (fun b => rectB b && (b.length == a.length)) then
      some ((List.range a.length).map fun i => ((a :: rest).map fun b => b.getD i []).flatten)
    else none

/-! ### The wrapper class `M` -/

/-- `class M`: holds the wrapped array `self.A`. -/
structure M where
  A : Arr
deriving DecidableEq

/-- `__add__`: `M(self.A + _unwrap(other))`. -/
def M.add (x y : M) : Option M := (npAdd x.A y.A).map M.mk

/-- `__sub__`: `M(self.A - _unwrap(other))`. -/
def M.sub (x y : M) : Option M := (npSub x.A y.A).map M.mk

/-- `__mul__`: `M(self.A @ _unwrap(other))`. -/
def M.mul (x y : M) : Option M := (npMatmul x.A y.A).map M.mk

/-- `__truediv__`: `M(self.A @ np.linalg.inv(_unwrap(other)))`. -/
def M.div (x y : M) : Option M :=
  ((npInv y.A).bind fun bi => npMatmul x.A bi).map M.mk

/-- `__pow__`: `M(np.linalg.matrix_power(self.A, p))`. -/
def M.pow (x : M) (p : Int) : Option M := (npMatrixPower x.A p).map M.mk

/-- `emul`: `M(self.A * _unwrap(other))`. -/
def M.emul (x y : M) : Option M := (npMulE x.A y.A).map M.mk

/-- `inv`: `M(np.linalg.inv(self.A))`. -/
def M.inv (x : M) : Option M := (npInv x.A).map M.mk

/-- `det`: `np.linalg.det(self.A)` (unwrapped scalar). -/
def M.det (x : M) : Option ℚ := npDet x.A

/-- `rank`: `np.linalg.matrix_rank(self.A)`, with the library routine passed
as a parameter (its numeric behavior is threshold-based and not re-modelled). -/
def M.rankW (npRank : Arr → Nat) (x : M) : Nat := npRank x.A

/-- `pinv`: `M(np.linalg.pinv(self.A))`, library routine as a parameter. -/
def M.pinvW (npPinv : Arr → Option Arr) (x : M) : Option M :=
  (npPinv x.A).map M.mk

/-- `eig`: `w, v = np.linalg.eig(self.A); return M(w), M(v)`, library routine
as a parameter. -/
def M.eigW (npEig : Arr → Option (Arr × Arr)) (x : M) : Option (M × M) :=
  (npEig x.A).map fun wv => (M.mk wv.1, M.mk wv.2)

/-- Property `T`: `M(self.A.T)`. -/
def M.T (x : M) : M := M.mk (npTranspose x.A)

/-- Property `H`: `M(self.A.conj().T)`. -/
def M.H (x : M) : M := M.mk (npTranspose (npConj x.A))

/-- Property `shape`: `self.A.shape`. -/
def M.shape (x : M) : List Nat := npShape x.A

/-- `__call__`: shift each int argument down by one, then index. -/
def M.call (x : M) (key : List Idx) : Option NpVal :=
  npIndex x.A (key.map shiftIdx)

/-- `__getitem__`: index the wrapped array directly. -/
def M.getitem (x : M) (key : List Idx) : Option NpVal :=
  npIndex x.A key

/-- `hcat(*args)`: `M(np.hstack([_unwrap(a) for a in args]))`. -/
def M.hcat (args : List M) : Option M := (npHstack (args.map M.A)).map M.mk

/-- `vcat(*args)`: `M(np.vstack([_unwrap(a) for a in args]))`. -/
def M.vcat (args : List M) : Option M := (npVstack (args.map M.A)).map M.mk

/-! ### Construction from raw data and the heap model

`M.__init__` either copies another `M`'s array or converts the data with
`np.array(data, dtype=float)`.  For aliasing claims the arrays live in an
explicit store; an `M` object holds the store index of its array. -/

/-- A Python number as it may appear in constructor data. -/
inductive PyNum
  | int (n : Int)
  | float (q : ℚ)
  | complex (re im : ℚ)
deriving DecidableEq

/-- Conversion of one entry to the float dtype: `float()` of a complex raises
`TypeError`, so `np.array(data, dtype=float)` fails on complex entries. -/
def npFloatOf : PyNum → Option ℚ
  | .int n => some (n : ℚ)
  | .float q => some q
  | .complex _ _ => none

/-- `M(data)` on non-`M` data: `np.array(data, dtype=float)`. -/
def M.initData (data : List (List PyNum)) : Option M :=
  ((optMapM (optMapM npFloatOf) data).bind npArray2d).map M.mk

/-- The heap of live arrays; an array reference is an index into it. -/
abbrev Store := List Arr

/-- `M(b)` on an existing `M`: `self.A = data.A.copy()` — allocate a fresh
array holding a copy of `b`'s contents, return its reference. -/
def initFromM (st : Store) (rb : Nat) : Store × Nat :=
  (st ++ [st.getD rb []], st.length)

/-- Scalar assignment target resolution: `a[i, j] = v`. -/
def setEntry (a : Arr) (i j : Int) (v : ℚ) : Option Arr :=
  (normIdx a.length i).bind fun i2 => (a[i2]?).bind fun row =>
  (normIdx row.length j).bind fun j2 => some (a.set i2 (row.set j2 v))

/-- `__setitem__` through the store: mutate only the addressed array. -/
def setItemSt (st : Store) (r : Nat) (i j : Int) (v : ℚ) : Option Store :=
  (st[r]?).bind fun a => (setEntry a i j v).map fun a2 => st.set r a2

/-- `__mul__` through the store: read both operands, multiply, allocate the
result; an exception (`none`) leaves the store untouched. -/
def mulSt (st : Store) (ra rb : Nat) : Option (Store × Nat) :=
  (st[ra]?).bind fun a => (st[rb]?).bind fun b =>
  (npMatmul a b).map fun c => (st ++ [c], st.length)

/-- `inv` through the store. -/
def invSt (st : Store) (ra : Nat) : Option (Store × Nat) :=
  (st[ra]?).bind fun a => (npInv a).map fun c => (st ++ [c], st.length)

/-! ## Lemmas: splitting and stripping -/

theorem splitAux_cons (p : Char → Bool) (c : Char) (t : List Char) :
    splitAux p (c :: t) =
      if p c then ([], (splitAux p t).1 :: (splitAux p t).2)
      else (c :: (splitAux p t).1, (splitAux p t).2) := rfl

theorem splitOnP_cons_sep {p : Char → Bool} {c : Char} (t : List Char) (h : p c = true) :
    splitOnP p (c :: t) = [] :: splitOnP p t := by
  simp [splitOnP, splitAux_cons, h]

theorem splitAux_append_sep {p : Char → Bool} {c : Char} (s : List Char) (h : p c = true) :
    splitAux p (s ++ [c]) = ((splitAux p s).1, (splitAux p s).2 ++ [[]]) := by
  induction s with
  | nil => simp [splitAux, h]
  | cons a t ih =>
    by_cases ha : p a = true
    · simp [splitAux_cons, ha, ih]
    · simp [splitAux_cons, Bool.of_not_eq_true ha, ih]

theorem splitAux_append_neg {p : Char → Bool} {c : Char} (s : List Char) (h : p c = false) :
    splitAux p (s ++ [c]) =
      if (splitAux p s).2 = [] then ((splitAux p s).1 ++ [c], [])
      else ((splitAux p s).1,
            (splitAux p s).2.dropLast ++ [(splitAux p s).2.getLastD [] ++ [c]]) := by
  induction s with
  | nil => simp [splitAux, h]
  | cons a t ih =>
    by_cases ha : p a = true
    · simp only [List.cons_append, splitAux_cons, ha, if_true, ih]
      by_cases ht : (splitAux p t).2 = []
      · simp [ht]
      · simp only [ht, if_false]
        have hne : (splitAux p t).1 :: (splitAux p t).2 ≠ [] := by simp
        simp [List.dropLast_cons_of_ne_nil ht, List.getLastD_cons]
        cases h2 : (splitAux p t).2 with
        | nil => exact absurd h2 ht
        | cons r rs => simp [List.getLastD_cons]
    · simp only [List.cons_append, splitAux_cons, Bool.of_not_eq_true ha, if_false, ih]
      by_cases ht : (splitAux p t).2 = []
      · simp [ht]
      · simp [ht]

theorem pyStrip_cons_space {c : Char} (x : List Char) (h : pySpace c = true) :
    pyStrip (c :: x) = pyStrip x := by
  simp [pyStrip, List.dropWhile_cons, h]

theorem pyStrip_append_space {c : Char} (x : List Char) (h : pySpace c = true) :
    pyStrip (x ++ [c]) = pyStrip x := by
  unfold pyStrip
  by_cases hx : x.dropWhile pySpace = []
  · rw [List.dropWhile_append]
    simp [hx, List.dropWhile_cons, h]
  · rw [List.dropWhile_append]
    simp only [hx, List.isEmpty_iff, if_neg]
    simp [List.reverse_append, List.dropWhile_cons, h, hx]

theorem dropLast_append_getLastD {α : Type} :
    ∀ {l : List α} (d : α), l ≠ [] → l.dropLast ++ [l.getLastD d] = l := by
  intro l
  induction l with
  | nil => exact fun d h => absurd rfl h
  | cons a t ih =>
    intro d h
    cases t with
    | nil => simp
    | cons b u =>
      have hrec := ih (d := a) (by simp)
      rw [List.getLastD_cons] at hrec
      simp only [List.getLastD_cons,
        List.dropLast_cons_of_ne_nil (by simp : b :: u ≠ []), List.cons_append]
      rw [hrec]

theorem getLastD_irrel {α : Type} {l : List α} (d d' : α) (h : l ≠ []) :
    l.getLastD d = l.getLastD d' := by
  cases l with
  | nil => exact absurd rfl h
  | cons a t => rw [List.getLastD_cons, List.getLastD_cons]

theorem rowsF_cons_sep {c : Char} (u : List Char) (h : rowSepB c = true) :
    rowsF (c :: u) = rowsF u := by
  simp [rowsF, splitOnP_cons_sep _ h, pyStrip]

theorem rowsF_cons_space {c : Char} (u : List Char) (h : pySpace c = true) :
    rowsF (c :: u) = rowsF u := by
  by_cases hr : rowSepB c = true
  · exact rowsF_cons_sep u hr
  · simp [rowsF, splitOnP, splitAux_cons, Bool.of_not_eq_true hr, pyStrip_cons_space _ h]

theorem rowsF_append_space {c : Char} (s : List Char) (h : pySpace c = true) :
    rowsF (s ++ [c]) = rowsF s := by
  by_cases hr : rowSepB c = true
  · simp only [rowsF, splitOnP, splitAux_append_sep s hr, List.map_append, List.map_cons,
      List.map_nil]
    rw [List.filter_cons, List.filter_cons, List.filter_append]
    simp [pyStrip]
  · have hneg : rowSepB c = false := Bool.of_not_eq_true hr
    by_cases ht : (splitAux rowSepB s).2 = []
    · simp [rowsF, splitOnP, splitAux_append_neg s hneg, ht, pyStrip_append_space _ h]
    · simp only [rowsF, splitOnP, splitAux_append_neg s hneg, ht, if_neg, if_false]
      have hrec := dropLast_append_getLastD (l := (splitAux rowSepB s).2) [] ht
      conv_rhs => rw [← hrec]
      simp [pyStrip_append_space _ h]

theorem rowsF_dropWhile (s : List Char) : rowsF (s.dropWhile pySpace) = rowsF s := by
  induction s with
  | nil => rfl
  | cons a t ih =>
    by_cases ha : pySpace a = true
    · rw [List.dropWhile_cons_of_pos ha, ih, rowsF_cons_space t ha]
    · rw [List.dropWhile_cons_of_neg (by simp [ha])]

theorem rowsF_rstrip (s : List Char) :
    rowsF ((s.reverse.dropWhile pySpace).reverse) = rowsF s := by
  induction s using List.reverseRecOn with
  | nil => rfl
  | append_singleton w c ih =>
    by_cases hc : pySpace c = true
    · rw [List.reverse_append, List.reverse_singleton, List.singleton_append,
        List.dropWhile_cons_of_pos hc, ih, rowsF_append_space w hc]
    · rw [List.reverse_append, List.reverse_singleton, List.singleton_append,
        List.dropWhile_cons_of_neg (by simp [hc]), List.reverse_cons, List.reverse_reverse]

theorem rowsF_pyStrip (s : List Char) : rowsF (pyStrip s) = rowsF s := by
  unfold pyStrip
  rw [rowsF_rstrip (s.dropWhile pySpace), rowsF_dropWhile]

theorem specTokens_cons_sep {c : Char} (u : List Char) (h : colSepB c = true) :
    specTokens (c :: u) = specTokens u := by
  simp [specTokens, splitOnP_cons_sep _ h]

theorem specTokens_append_sep {c : Char} (u : List Char) (h : colSepB c = true) :
    specTokens (u ++ [c]) = specTokens u := by
  simp only [specTokens, splitOnP, splitAux_append_sep u h]
  rw [List.filter_cons, List.filter_cons, List.filter_append]
  simp

/-- In a string whose whitespace is only spaces, token structure ignores a
leading whitespace run. -/
theorem specTokens_dropWhile (u : List Char)
    (hws : ∀ c ∈ u, pySpace c = true → colSepB c = true) :
    specTokens (u.dropWhile pySpace) = specTokens u := by
  induction u with
  | nil => rfl
  | cons a t ih =>
    by_cases ha : pySpace a = true
    · rw [List.dropWhile_cons_of_pos ha,
        ih (fun c hc h => hws c (List.mem_cons_of_mem a hc) h),
        specTokens_cons_sep t (hws a (List.mem_cons_self a t) ha)]
    · rw [List.dropWhile_cons_of_neg (by simp [ha])]

theorem specTokens_rstrip (u : List Char)
    (hws : ∀ c ∈ u, pySpace c = true → colSepB c = true) :
    specTokens ((u.reverse.dropWhile pySpace).reverse) = specTokens u := by
  induction u using List.reverseRecOn with
  | nil => rfl
  | append_singleton w c ih =>
    by_cases hc : pySpace c = true
    · rw [List.reverse_append, List.reverse_singleton, List.singleton_append,
        List.dropWhile_cons_of_pos hc,
        ih (fun x hx h => hws x (List.mem_append_left _ hx) h),
        specTokens_append_sep w (hws c (by simp) hc)]
    · rw [List.reverse_append, List.reverse_singleton, List.singleton_append,
        List.dropWhile_cons_of_neg (by simp [hc]), List.reverse_cons, List.reverse_reverse]

theorem specTokens_pyStrip (u : List Char)
    (hws : ∀ c ∈ u, pySpace c = true → colSepB c = true) :
    specTokens (pyStrip u) = specTokens u := by
  unfold pyStrip
  rw [specTokens_rstrip (u.dropWhile pySpace)
      (fun c hc h => hws c ((List.dropWhile_sublist pySpace).mem hc) h),
    specTokens_dropWhile u hws]

/-- Replacing newlines by semicolons and splitting at `;` is splitting at
`;`-or-newline. -/
theorem splitAux_nlToSemi (s : List Char) :
    splitAux semiB (s.map nlToSemi) = splitAux rowSepB s := by
  induction s with
  | nil => rfl
  | cons a t ih =>
    by_cases hn : a = '\n'
    · subst hn
      simp [splitAux_cons, nlToSemi, semiB, rowSepB, ih]
    · by_cases hs : a = ';'
      · subst hs
        simp [splitAux_cons, nlToSemi, semiB, rowSepB, ih]
      · simp [splitAux_cons, nlToSemi, semiB, rowSepB, hn, hs, ih]

/-- Character-level facts about the allowed class (minus newline): the
whitespace split after comma replacement coincides with the space-or-comma
split, and the only whitespace is the space itself. -/
theorem allowed_char_fact {c : Char} (h : allowedChar c = true) (hn : c ≠ '\n') :
    pySpace (commaToSpace c) = colSepB c ∧
    (colSepB c = false → commaToSpace c = c) ∧
    (pySpace c = true → colSepB c = true) := by
  have hmem : c ∈ "0123456789.+-eE ,;\n".toList := of_decide_eq_true h
  fin_cases hmem <;> simp_all <;> decide

/-- On strings from the allowed class with no newline, `mat`'s tokenization
(`replace(",", " ")` then whitespace split) equals the spec's
space-or-comma split. -/
theorem splitAux_commaToSpace (r : List Char)
    (hr : ∀ c ∈ r, allowedChar c = true ∧ c ≠ '\n') :
    splitAux pySpace (r.map commaToSpace) = splitAux colSepB r := by
  induction r with
  | nil => rfl
  | cons a t ih =>
    obtain ⟨ha, han⟩ := hr a (List.mem_cons_self a t)
    have hrest := ih fun c hc => hr c (List.mem_cons_of_mem a hc)
    obtain ⟨h1, h2, _⟩ := allowed_char_fact ha han
    by_cases hsep : colSepB a = true
    · simp [splitAux_cons, h1, hsep, hrest]
    · have hcc : commaToSpace a = a := h2 (Bool.of_not_eq_true hsep)
      have hps : pySpace a = false := by
        rw [← hcc, h1]
        exact Bool.of_not_eq_true hsep
      simp [splitAux_cons, Bool.of_not_eq_true hsep, hcc, hrest, hps]

theorem srcTokens_eq_specTokens (r : List Char)
    (hr : ∀ c ∈ r, allowedChar c = true ∧ c ≠ '\n') :
    srcTokens r = specTokens r := by
  simp [srcTokens, pySplit, specTokens, splitOnP, splitAux_commaToSpace r hr]

/-- `mat`'s row pipeline (global strip, newline replacement, `;` split,
per-row strip, blank-row removal) equals splitting at `;`-or-newline with
per-row strip and blank-row removal. -/
theorem srcRows_eq_rowsF (s : List Char) : srcRows s = rowsF s := by
  have h : splitOnP semiB ((pyStrip s).map nlToSemi) = splitOnP rowSepB (pyStrip s) := by
    simp [splitOnP, splitAux_nlToSemi]
  unfold srcRows
  rw [h]
  exact rowsF_pyStrip s

/-- The stripped-then-filtered rows are the stripped images of the
spec-side non-blank rows. -/
theorem rowsF_eq_map_strip (s : List Char) : rowsF s = (specRows s).map pyStrip := by
  unfold rowsF specRows
  induction splitOnP rowSepB s with
  | nil => rfl
  | cons r rs ih =>
    rw [List.map_cons, List.filter_cons, List.filter_cons]
    by_cases h : pyStrip r = []
    · rw [if_neg (by simp [h]), if_neg (by simp [h])]
      exact ih
    · rw [if_pos (by simp [h]), if_pos (by simp [h]), List.map_cons, ih]

theorem srcRows_eq_map_strip (s : List Char) : srcRows s = (specRows s).map pyStrip := by
  rw [srcRows_eq_rowsF, rowsF_eq_map_strip]

/-- Characters of a split field come from the string and are non-separators. -/
theorem splitOnP_chars {p : Char → Bool} :
    ∀ {s : List Char}, ∀ f ∈ splitOnP p s, ∀ c ∈ f, c ∈ s ∧ p c = false := by
  intro s
  induction s with
  | nil => intro f hf c hc; simp [splitOnP, splitAux] at hf; simp [hf] at hc
  | cons a t ih =>
    intro f hf c hc
    by_cases ha : p a = true
    · rw [splitOnP_cons_sep t ha] at hf
      rcases List.mem_cons.mp hf with rfl | hf2
      · simp at hc
      · obtain ⟨h1, h2⟩ := ih f hf2 c hc
        exact ⟨List.mem_cons_of_mem a h1, h2⟩
    · have hneg := Bool.of_not_eq_true ha
      simp only [splitOnP, splitAux_cons, hneg, Bool.false_eq_true, if_false] at hf
      rcases List.mem_cons.mp hf with rfl | hf2
      · rcases List.mem_cons.mp hc with rfl | hc2
        · exact ⟨List.mem_cons_self c t, hneg⟩
        · obtain ⟨h1, h2⟩ := ih (splitAux p t).1 (by simp [splitOnP]) c hc2
          exact ⟨List.mem_cons_of_mem a h1, h2⟩
      · obtain ⟨h1, h2⟩ := ih f (by simp [splitOnP, hf2]) c hc
        exact ⟨List.mem_cons_of_mem a h1, h2⟩

theorem specRows_chars {s r : List Char} (hr : r ∈ specRows s) :
    ∀ c ∈ r, c ∈ s ∧ rowSepB c = false :=
  splitOnP_chars r (List.mem_of_mem_filter hr)

theorem mem_pyStrip {c : Char} {r : List Char} (h : c ∈ pyStrip r) : c ∈ r := by
  unfold pyStrip at h
  rw [List.mem_reverse] at h
  have h2 := (List.dropWhile_sublist (p := pySpace)).mem h
  rw [List.mem_reverse] at h2
  exact (List.dropWhile_sublist (p := pySpace)).mem h2

/-- For a non-blank row of an allowed-class literal, `mat`'s tokenization of
the stripped row equals the spec-side tokenization of the raw row. -/
theorem srcTokens_strip_eq_specTokens (r : List Char)
    (hall : ∀ c ∈ r, allowedChar c = true) (hnn : ∀ c ∈ r, c ≠ '\n') :
    srcTokens (pyStrip r) = specTokens r := by
  have hws : ∀ c ∈ r, pySpace c = true → colSepB c = true := fun c hc hsp =>
    (allowed_char_fact (hall c hc) (hnn c hc)).2.2 hsp
  rw [srcTokens_eq_specTokens (pyStrip r)
      (fun c hc => ⟨hall c (mem_pyStrip hc), hnn c (mem_pyStrip hc)⟩),
    specTokens_pyStrip r hws]

/-! ## Lemmas: `optMapM` and `npArray2d` -/

theorem optMapM_length {α β : Type} {f : α → Option β} :
    ∀ {l : List α} {ys : List β}, optMapM f l = some ys → ys.length = l.length := by
  intro l
  induction l with
  | nil => intro ys h; simp [optMapM] at h; simp [← h]
  | cons a t ih =>
    intro ys h
    simp only [optMapM, Option.bind_eq_some, Option.map_eq_some'] at h
    obtain ⟨b, _, zs, hzs, rfl⟩ := h
    simp [ih hzs]

theorem optMapM_getElem? {α β : Type} {f : α → Option β} :
    ∀ {l : List α} {ys : List β} {i : Nat} {a : α},
      optMapM f l = some ys → l[i]? = some a → ∃ b, ys[i]? = some b ∧ f a = some b := by
  intro l
  induction l with
  | nil => intro ys i a h ha; simp at ha
  | cons x t ih =>
    intro ys i a h ha
    simp only [optMapM, Option.bind_eq_some, Option.map_eq_some'] at h
    obtain ⟨b, hb, zs, hzs, rfl⟩ := h
    cases i with
    | zero =>
      simp at ha
      subst ha
      exact ⟨b, by simp, hb⟩
    | succ n =>
      simp only [List.getElem?_cons_succ] at ha ⊢
      exact ih hzs ha

theorem optMapM_none_of_mem {α β : Type} {f : α → Option β} :
    ∀ {l : List α} {a : α}, a ∈ l → f a = none → optMapM f l = none := by
  intro l
  induction l with
  | nil => intro a ha; simp at ha
  | cons x t ih =>
    intro a ha hf
    rcases List.mem_cons.mp ha with rfl | ht
    · simp [optMapM, hf]
    · simp only [optMapM]
      cases hx : f x with
      | none => rfl
      | some b => simp [ih ht hf]

theorem npArray2d_some {data A : List (List ℚ)} (h : npArray2d data = some A) : A = data := by
  cases data with
  | nil => simpa [npArray2d] using h.symm
  | cons r rs =>
    simp only [npArray2d] at h
    split at h
    · exact (Option.some.inj h).symm
    · exact absurd h (by simp)

theorem npArray2d_rect {data A : List (List ℚ)} (h : npArray2d data = some A) :
    ∀ r ∈ A, r.length = colsA A := by
  obtain rfl := npArray2d_some h
  cases A with
  | nil => simp
  | cons r rs =>
    simp only [npArray2d] at h
    split at h
    · next hall =>
      intro x hx
      rcases List.mem_cons.mp hx with rfl | hxs
      · rfl
      · simp only [List.all_eq_true, beq_iff_eq] at hall
        exact hall x hxs
    · exact absurd h (by simp)

/-! ## Lemmas: assembling `mat` against the spec-side grammar -/

theorem matData_of_mat {s : List Char} {A : Arr} (h : mat s = some A) :
    optMapM rowVals (srcRows s) = some A := by
  unfold mat at h
  obtain ⟨d, hd, hnp⟩ := Option.bind_eq_some.mp h
  obtain rfl := npArray2d_some hnp
  exact hd

theorem mat_length_eq {s : List Char} {A : Arr} (h : mat s = some A) :
    A.length = (specRows s).length := by
  have hl := optMapM_length (matData_of_mat h)
  rw [srcRows_eq_map_strip, List.length_map] at hl
  exact hl

theorem mat_row_of_specRow {s : List Char} {A : Arr} (h : mat s = some A)
    {i : Nat} (hi : i < A.length) :
    ∃ r' arow, (specRows s)[i]? = some r' ∧ A[i]? = some arow ∧
      rowVals (pyStrip r') = some arow := by
  have hi' : i < (specRows s).length := mat_length_eq h ▸ hi
  have hr' : (specRows s)[i]? = some ((specRows s)[i]) :=
    (List.getElem?_eq_some_getElem_iff _ i hi').mpr trivial
  have hsrc : (srcRows s)[i]? = some (pyStrip ((specRows s)[i])) := by
    rw [srcRows_eq_map_strip, List.getElem?_map, hr']
    rfl
  obtain ⟨b, hb, hfb⟩ := optMapM_getElem? (matData_of_mat h) hsrc
  exact ⟨(specRows s)[i], b, hr', hb, hfb⟩

theorem specRow_tokens_eq {s : List Char} (hall : s.all allowedChar = true)
    {r' : List Char} (hr : r' ∈ specRows s) :
    srcTokens (pyStrip r') = specTokens r' := by
  apply srcTokens_strip_eq_specTokens
  · intro c hc
    exact List.all_eq_true.mp hall c ((specRows_chars hr c hc).1)
  · intro c hc heq
    have hsep := (specRows_chars hr c hc).2
    rw [heq] at hsep
    simp [rowSepB] at hsep

/-! ## Claim theorems -/

/-- C1: for every string literal over the claim's character class, whose rows
are separated by semicolons or newlines and whose entries are separated by
spaces or commas, a successful `mat` returns a matrix whose `(i, j)` entry
(zero-based here) is the numeric value of the `j`-th token of the `i`-th
non-empty row; in particular `mat("1 2; 3 4")` and `mat("1,2\n3 4")` denote
the same grid. -/
theorem mat_entries_eq_token_values :
    (∀ (s : List Char) (A : Arr), s.all allowedChar = true → mat s = some A →
      ∀ i j : Nat, i < A.length → j < (A.getD i []).length →
        pyFloat ((specTokens ((specRows s).getD i [])).getD j []) = some (entry A i j))
    ∧ mat "1 2; 3 4".toList = mat "1,2\n3 4".toList := by
  constructor
  · intro s A hall hmat i j hi hj
    obtain ⟨r', arow, hr', harow, hrv⟩ := mat_row_of_specRow hmat hi
    have hgetD : A.getD i [] = arow := by
      rw [List.getD_eq_getElem?_getD, harow]
      rfl
    have htok : srcTokens (pyStrip r') = specTokens r' :=
      specRow_tokens_eq hall (List.getElem?_mem hr')
    rw [hgetD] at hj
    unfold rowVals at hrv
    have hjtok : j < (srcTokens (pyStrip r')).length := by
      rw [optMapM_length hrv] at hj
      exact hj
    have htokj : (srcTokens (pyStrip r'))[j]? = some ((srcTokens (pyStrip r'))[j]) :=
      (List.getElem?_eq_some_getElem_iff _ j hjtok).mpr trivial
    obtain ⟨v, hv, hfv⟩ := optMapM_getElem? hrv htokj
    have hentry : entry A i j = v := by
      unfold entry
      rw [harow]
      simp [hv]
    have hrows : (specRows s).getD i [] = r' := by
      rw [List.getD_eq_getElem?_getD, hr']
      rfl
    have htoks : (specTokens ((specRows s).getD i [])).getD j [] =
        (srcTokens (pyStrip r'))[j] := by
      rw [hrows, ← htok, List.getD_eq_getElem?_getD, htokj]
      rfl
    rw [htoks, hentry]
    exact hfv
  · decide

/-- Witness for C1: the literal `"1 2; 3 4"`, entry `(0, 1)` (MATLAB `(1, 2)`). -/
theorem mat_entries_eq_token_values_witness :
    pyFloat ((specTokens ((specRows "1 2; 3 4".toList).getD 0 [])).getD 1 []) =
      some (entry [[1, 2], [3, 4]] 0 1) :=
  mat_entries_eq_token_values.1 "1 2; 3 4".toList [[1, 2], [3, 4]]
    (by decide) (by decide) 0 1 (by decide) (by decide)

/-- C2 counterexample: `mat("")` succeeds, but the resulting array is the
1-D empty array of shape `(0,)` — not a two-dimensional grid, so the claim's
"the result is two-dimensional" fails on the empty literal. -/
theorem mat_empty_one_dimensional :
    mat "".toList = some [] ∧ M.shape (M.mk []) = [0] ∧ (M.shape (M.mk [])).length ≠ 2 := by
  decide

/-- C2 (amended): for every literal that `mat` parses successfully and that
has at least one non-empty row, the result is a two-dimensional rectangular
grid: its shape is (number of rows, common column count), every row has the
common column count, the number of rows equals the number of non-blank rows
of the literal, and (over the claim's character class) each row's length is
that row's token count. -/
theorem mat_shape_spec :
    ∀ (s : List Char) (A : Arr), mat s = some A → A ≠ [] →
      npShape A = [A.length, colsA A] ∧
      (∀ r ∈ A, r.length = colsA A) ∧
      A.length = (specRows s).length ∧
      (s.all allowedChar = true → ∀ i : Nat, i < A.length →
        (A.getD i []).length = (specTokens ((specRows s).getD i [])).length) := by
  intro s A hmat hne
  refine ⟨?_, ?_, mat_length_eq hmat, ?_⟩
  · rw [npShape, if_neg (by simp [hne])]
  · obtain ⟨d, hd, hnp⟩ := Option.bind_eq_some.mp hmat
    exact npArray2d_rect hnp
  · intro hall i hi
    obtain ⟨r', arow, hr', harow, hrv⟩ := mat_row_of_specRow hmat hi
    have hgetD : A.getD i [] = arow := by
      rw [List.getD_eq_getElem?_getD, harow]
      rfl
    unfold rowVals at hrv
    have hlen := optMapM_length hrv
    rw [specRow_tokens_eq hall (List.getElem?_mem hr')] at hlen
    have hrows : (specRows s).getD i [] = r' := by
      rw [List.getD_eq_getElem?_getD, hr']
      rfl
    rw [hgetD, hrows, hlen]

/-- Witness for C2's amended theorem at the literal `"1 2; 3 4"`. -/
theorem mat_shape_spec_witness :
    npShape [[1, 2], [3, 4]] = [2, 2] ∧
    (2 : Nat) = (specRows "1 2; 3 4".toList).length := by
  have h := mat_shape_spec "1 2; 3 4".toList [[1, 2], [3, 4]] (by decide) (by decide)
  exact ⟨by rw [h.1]; decide, h.2.2.1⟩

/-! ## Indexing lemmas and claims C3, C9 -/

theorem normIdx_eq_some {n : Nat} {i : Int} (h0 : 0 ≤ i) (h : i < n) :
    normIdx n i = some i.toNat := by
  unfold normIdx
  rw [if_pos ⟨h0, h⟩]

theorem rect_row_length {a : Arr} (h : rectB a = true) {r : List ℚ} (hr : r ∈ a) :
    r.length = colsA a := by
  simp only [rectB, List.all_eq_true, beq_iff_eq] at h
  exact h r hr

/-- C3: for a matrix and 1-based indices `i`, `j` within the row and column
counts, `A(i, j)` returns exactly the element stored at zero-based position
`(i-1, j-1)`; instantiated at `(1, 1)` this is the first element. -/
theorem call_one_based (x : M) (i j : Nat) (hrect : rectB x.A = true)
    (hi1 : 1 ≤ i) (hi2 : i ≤ x.A.length) (hj1 : 1 ≤ j) (hj2 : j ≤ colsA x.A) :
    M.call x [.int (i : Int), .int (j : Int)] =
      some (.scalar (entry x.A (i - 1) (j - 1))) := by
  have hi : i - 1 < x.A.length := by omega
  have h1 : normIdx x.A.length ((i : Int) - 1) = some (i - 1) := by
    rw [normIdx_eq_some (by omega) (by omega)]
    congr 1
    omega
  have hrow : x.A[i - 1]? = some (x.A[i - 1]) :=
    (List.getElem?_eq_some_getElem_iff _ _ hi).mpr trivial
  have hrlen : (x.A[i - 1]).length = colsA x.A :=
    rect_row_length hrect (List.getElem_mem hi)
  have hj : j - 1 < (x.A[i - 1]).length := by omega
  have h2 : normIdx (x.A[i - 1]).length ((j : Int) - 1) = some (j - 1) := by
    rw [normIdx_eq_some (by omega) (by omega)]
    congr 1
    omega
  have hv : (x.A[i - 1])[j - 1]? = some ((x.A[i - 1])[j - 1]) :=
    (List.getElem?_eq_some_getElem_iff _ _ hj).mpr trivial
  show npIndex x.A [Idx.int ((i : Int) - 1), Idx.int ((j : Int) - 1)] = _
  rw [npIndex, h1, Option.some_bind, hrow, Option.some_bind, h2, Option.some_bind, hv]
  unfold entry
  rw [hrow]
  simp [hv]

/-- Witness for C3: `A(1, 1)` on `[[1, 2], [3, 4]]` is the first element. -/
theorem call_one_based_witness :
    M.call (M.mk [[1, 2], [3, 4]]) [.int 1, .int 1] =
      some (.scalar (entry [[1, 2], [3, 4]] 0 0)) :=
  call_one_based (M.mk [[1, 2], [3, 4]]) 1 1 (by decide) (by decide) (by decide)
    (by decide) (by decide)

/-- C9: the 1-based shift in `A(...)` applies exactly to int arguments, and
bracket indexing stays zero-based: `A(key)` is `A[key with ints shifted]`,
`shiftIdx` lowers an int by one and forwards a slice unchanged, so
`A[i-1, j-1] = A(i, j)` and a slice argument behaves identically in `A(...)`
and `A[...]`. -/
theorem call_shifts_only_ints :
    (∀ (x : M) (key : List Idx), M.call x key = M.getitem x (key.map shiftIdx)) ∧
    (∀ i : Int, shiftIdx (.int i) = .int (i - 1)) ∧
    (∀ s e t : Option Int, shiftIdx (.slice s e t) = .slice s e t) ∧
    (∀ (x : M) (i j : Int),
      M.getitem x [.int (i - 1), .int (j - 1)] = M.call x [.int i, .int j]) ∧
    (∀ (x : M) (i : Int) (s e t : Option Int),
      M.call x [.int i, .slice s e t] = M.getitem x [.int (i - 1), .slice s e t]) ∧
    (∀ (x : M) (s e t : Option Int) (k : Idx),
      M.call x [.slice s e t, k] = M.getitem x [.slice s e t, shiftIdx k]) ∧
    (∀ (x : M) (s e t : Option Int),
      M.call x [.slice s e t] = M.getitem x [.slice s e t]) :=
  ⟨fun _ _ => rfl, fun _ => rfl, fun _ _ _ => rfl, fun _ _ _ => rfl,
   fun _ _ _ _ _ => rfl, fun _ _ _ _ _ => rfl, fun _ _ _ _ => rfl⟩

/-! ## Arithmetic lemmas and claim C4 -/

theorem npShape_pair {a : Arr} {m k : Nat} (h : npShape a = [m, k]) :
    a ≠ [] ∧ a.length = m ∧ colsA a = k := by
  unfold npShape at h
  by_cases he : a.isEmpty
  · rw [if_pos he] at h
    exact absurd h (by simp)
  · rw [if_neg he] at h
    obtain ⟨h1, h2⟩ : a.length = m ∧ colsA a = k := by simpa using h
    exact ⟨by simpa using he, h1, h2⟩

theorem mulGrid_length (a b : Arr) : (mulGrid a b).length = a.length := by
  simp [mulGrid]

theorem mulGrid_cols {a : Arr} (b : Arr) (ha : a ≠ []) :
    colsA (mulGrid a b) = colsA b := by
  cases a with
  | nil => exact absurd rfl ha
  | cons r rs => simp [mulGrid, colsA]

theorem entry_mulGrid {a b : Arr} {i j : Nat} (hi : i < a.length) (hj : j < colsA b) :
    entry (mulGrid a b) i j = dot (a.getD i []) (colOf b j) := by
  have hai : a[i]? = some a[i] := (List.getElem?_eq_some_getElem_iff _ _ hi).mpr trivial
  unfold entry mulGrid
  rw [List.getElem?_map, hai]
  simp only [Option.map_some', Option.some_bind]
  rw [List.getElem?_map, List.getElem?_range hj]
  simp [hai, List.getD_eq_getElem?_getD]

theorem entry_zipGrid {f : ℚ → ℚ → ℚ} {a b : Arr} {i j : Nat}
    (hra : rectB a = true) (hrb : rectB b = true)
    (hia : i < a.length) (hib : i < b.length)
    (hja : j < colsA a) (hjb : j < colsA b) :
    entry (zipGrid f a b) i j = f (entry a i j) (entry b i j) := by
  have hai : a[i]? = some a[i] := (List.getElem?_eq_some_getElem_iff _ _ hia).mpr trivial
  have hbi : b[i]? = some b[i] := (List.getElem?_eq_some_getElem_iff _ _ hib).mpr trivial
  have hla : j < (a[i]).length := by
    rw [rect_row_length hra (List.getElem_mem hia)]
    exact hja
  have hlb : j < (b[i]).length := by
    rw [rect_row_length hrb (List.getElem_mem hib)]
    exact hjb
  have haj : (a[i])[j]? = some ((a[i])[j]) :=
    (List.getElem?_eq_some_getElem_iff _ _ hla).mpr trivial
  have hbj : (b[i])[j]? = some ((b[i])[j]) :=
    (List.getElem?_eq_some_getElem_iff _ _ hlb).mpr trivial
  unfold entry zipGrid
  rw [List.getElem?_zipWith', hai, hbi]
  simp only [Option.map_some', Option.some_bind]
  rw [List.getElem?_zipWith', haj, hbj]
  simp

/-- C4: the wrapper separates matrix from elementwise multiplication: for
conformable shapes `(m, k) × (k, n)`, `A * B` succeeds and its `(i, j)` entry
is the dot product of row `i` of `A` with column `j` of `B`; for equal
shapes, `A.emul(B)` succeeds and its `(i, j)` entry is the product of the
`(i, j)` entries. -/
theorem mul_vs_emul :
    (∀ (x y : M) (m k n : Nat), rectB x.A = true → rectB y.A = true →
      npShape x.A = [m, k] → npShape y.A = [k, n] →
      ∃ z : M, M.mul x y = some z ∧ npShape z.A = [m, n] ∧
        ∀ i j : Nat, i < m → j < n →
          entry z.A i j = dot (x.A.getD i []) (colOf y.A j)) ∧
    (∀ x y : M, rectB x.A = true → rectB y.A = true →
      x.A.length = y.A.length → colsA x.A = colsA y.A →
      ∃ z : M, M.emul x y = some z ∧
        ∀ i j : Nat, i < x.A.length → j < colsA x.A →
          entry z.A i j = entry x.A i j * entry y.A i j) := by
  constructor
  · intro x y m k n hrx hry hsx hsy
    obtain ⟨hxne, hxl, hxc⟩ := npShape_pair hsx
    obtain ⟨hyne, hyl, hyc⟩ := npShape_pair hsy
    have hguard : (rectB x.A && rectB y.A && (colsA x.A == y.A.length)) = true := by
      simp [hrx, hry, hxc, hyl]
    refine ⟨M.mk (mulGrid x.A y.A), ?_, ?_, ?_⟩
    · unfold M.mul npMatmul
      rw [if_pos hguard]
      rfl
    · have hne : mulGrid x.A y.A ≠ [] := by
        intro h
        apply hxne
        have := mulGrid_length x.A y.A
        rw [h] at this
        exact List.length_eq_zero.mp this.symm
      unfold npShape
      rw [if_neg (by simpa using hne), mulGrid_length, mulGrid_cols y.A hxne, hxl, hyc]
    · intro i j hi hj
      exact entry_mulGrid (by omega) (by rw [hyc]; omega)
  · intro x y hrx hry hl hc
    have hguard : sameShapeB x.A y.A = true := by
      simp [sameShapeB, hrx, hry, hl, hc]
    refine ⟨M.mk (zipGrid (· * ·) x.A y.A), ?_, ?_⟩
    · unfold M.emul npMulE
      rw [if_pos hguard]
      rfl
    · intro i j hi hj
      exact entry_zipGrid hrx hry hi (hl ▸ hi) hj (hc ▸ hj)

/-- Witness for C4: `[[1,2],[3,4]]` with `[[5,6],[7,8]]`. -/
theorem mul_vs_emul_witness :
    (∃ z : M, M.mul (M.mk [[1, 2], [3, 4]]) (M.mk [[5, 6], [7, 8]]) = some z ∧
      npShape z.A = [2, 2] ∧
      ∀ i j : Nat, i < 2 → j < 2 →
        entry z.A i j = dot ([[(1 : ℚ), 2], [3, 4]].getD i []) (colOf [[5, 6], [7, 8]] j)) ∧
    (∃ z : M, M.emul (M.mk [[1, 2], [3, 4]]) (M.mk [[5, 6], [7, 8]]) = some z ∧
      ∀ i j : Nat, i < (M.mk [[(1 : ℚ), 2], [3, 4]]).A.length →
        j < colsA (M.mk [[(1 : ℚ), 2], [3, 4]]).A →
        entry z.A i j =
          entry (M.mk [[1, 2], [3, 4]]).A i j * entry (M.mk [[5, 6], [7, 8]]).A i j) :=
  ⟨mul_vs_emul.1 (M.mk [[1, 2], [3, 4]]) (M.mk [[5, 6], [7, 8]]) 2 2 2
      (by decide) (by decide) (by decide) (by decide),
   mul_vs_emul.2 (M.mk [[1, 2], [3, 4]]) (M.mk [[5, 6], [7, 8]])
      (by decide) (by decide) (by decide) (by decide)⟩

/-! ## Claim C5: every operation is a call-through to the library -/

theorem npAdd_some {a b c : Arr} (h : npAdd a b = some c) :
    sameShapeB a b = true ∧ c = zipGrid (· + ·) a b := by
  unfold npAdd at h
  split at h
  · next hc => exact ⟨hc, (Option.some.inj h).symm⟩
  · exact absurd h (by simp)

theorem npSub_some {a b c : Arr} (h : npSub a b = some c) :
    sameShapeB a b = true ∧ c = zipGrid (· - ·) a b := by
  unfold npSub at h
  split at h
  · next hc => exact ⟨hc, (Option.some.inj h).symm⟩
  · exact absurd h (by simp)

theorem npMatmul_some {a b c : Arr} (h : npMatmul a b = some c) :
    (rectB a && rectB b && (colsA a == b.length)) = true ∧ c = mulGrid a b := by
  unfold npMatmul at h
  split at h
  · next hc => exact ⟨hc, (Option.some.inj h).symm⟩
  · exact absurd h (by simp)

theorem sameShapeB_unpack {a b : Arr} (h : sameShapeB a b = true) :
    rectB a = true ∧ rectB b = true ∧ a.length = b.length ∧ colsA a = colsA b := by
  simp only [sameShapeB, Bool.and_eq_true, beq_iff_eq] at h
  exact ⟨h.1.1.1, h.1.1.2, h.1.2, h.2⟩

theorem entry_zipGrid_of_shape {f : ℚ → ℚ → ℚ} {a b : Arr} {z : Arr}
    (hs : sameShapeB a b = true) (hz : z = zipGrid f a b) :
    z.length = a.length ∧
    ∀ i j : Nat, i < a.length → j < colsA a →
      entry z i j = f (entry a i j) (entry b i j) := by
  obtain ⟨hra, hrb, hl, hc⟩ := sameShapeB_unpack hs
  subst hz
  refine ⟨by simp [zipGrid, hl], fun i j hi hj => ?_⟩
  exact entry_zipGrid hra hrb hi (hl ▸ hi) hj (hc ▸ hj)

/-- C5: every arithmetic operation of the wrapper is a direct call-through to
the library applied to the unwrapped arrays: `+`/`-` are the elementwise sum
and difference, `*` is the matrix product (dot-product entries), `A / B` is
`A * inv(B)`, `A ** p` is the `p`-th matrix power (identity at 0, one more
matrix product per increment), and `inv`, `pinv`, `det`, `rank`, `eig` return
exactly the library's results on the wrapped array, with no algorithm of the
wrapper's own. -/
theorem ops_delegate :
    (∀ x y z : M, M.add x y = some z → z.A.length = x.A.length ∧
      ∀ i j : Nat, i < x.A.length → j < colsA x.A →
        entry z.A i j = entry x.A i j + entry y.A i j) ∧
    (∀ x y z : M, M.sub x y = some z → z.A.length = x.A.length ∧
      ∀ i j : Nat, i < x.A.length → j < colsA x.A →
        entry z.A i j = entry x.A i j - entry y.A i j) ∧
    (∀ x y : M, M.mul x y = (npMatmul x.A y.A).map M.mk) ∧
    (∀ x y z : M, M.mul x y = some z →
      ∀ i j : Nat, i < x.A.length → j < colsA y.A →
        entry z.A i j = dot (x.A.getD i []) (colOf y.A j)) ∧
    (∀ x y : M, M.div x y = (M.inv y).bind fun yi => M.mul x yi) ∧
    (∀ (x : M) (p : Int), M.pow x p = (npMatrixPower x.A p).map M.mk) ∧
    (∀ x : M, rectB x.A = true → colsA x.A = x.A.length →
      M.pow x 0 = some (M.mk (identityArr x.A.length)) ∧
      ∀ p : Nat, M.pow x ((p : Int) + 1) =
        (M.pow x (p : Int)).map fun q => M.mk (mulGrid q.A x.A)) ∧
    (∀ x : M, M.inv x = (npInv x.A).map M.mk) ∧
    (∀ (npPinv : Arr → Option Arr) (x : M), M.pinvW npPinv x = (npPinv x.A).map M.mk) ∧
    (∀ x : M, M.det x = npDet x.A) ∧
    (∀ (npRank : Arr → Nat) (x : M), M.rankW npRank x = npRank x.A) ∧
    (∀ (npEig : Arr → Option (Arr × Arr)) (x : M),
      M.eigW npEig x = (npEig x.A).map fun wv => (M.mk wv.1, M.mk wv.2)) := by
  refine ⟨?_, ?_, fun _ _ => rfl, ?_, ?_, fun _ _ => rfl, ?_, fun _ => rfl,
    fun _ _ => rfl, fun _ => rfl, fun _ _ => rfl, fun _ _ => rfl⟩
  · intro x y z h
    obtain ⟨c, hc, hzc⟩ := Option.map_eq_some'.mp h
    obtain ⟨hs, rfl⟩ := npAdd_some hc
    subst hzc
    exact entry_zipGrid_of_shape hs rfl
  · intro x y z h
    obtain ⟨c, hc, hzc⟩ := Option.map_eq_some'.mp h
    obtain ⟨hs, rfl⟩ := npSub_some hc
    subst hzc
    exact entry_zipGrid_of_shape hs rfl
  · intro x y z h i j hi hj
    obtain ⟨c, hc, hzc⟩ := Option.map_eq_some'.mp h
    obtain ⟨hg, rfl⟩ := npMatmul_some hc
    rw [← hzc]
    exact entry_mulGrid hi hj
  · intro x y
    unfold M.div M.inv M.mul
    cases h : npInv y.A <;> simp [h]
  · intro x hr hc
    have hguard : (rectB x.A && (colsA x.A == x.A.length)) = true := by simp [hr, hc]
    constructor
    · unfold M.pow npMatrixPower
      rw [if_pos hguard, if_pos (by omega : (0 : Int) ≤ 0)]
      rfl
    · intro p
      unfold M.pow npMatrixPower
      rw [if_pos hguard, if_pos (by omega : (0 : Int) ≤ (p : Int) + 1),
        if_pos hguard, if_pos (by omega : (0 : Int) ≤ (p : Int))]
      have ht : ((p : Int) + 1).toNat = p + 1 := by omega
      have ht0 : ((p : Int)).toNat = p := by omega
      rw [ht, ht0]
      rfl

/-- Witness for C5: the elementwise-sum and matrix-power characterizations at
concrete 2×2 inputs. -/
theorem ops_delegate_witness :
    entry (M.mk (zipGrid (· + ·) [[(1 : ℚ), 2], [3, 4]] [[5, 6], [7, 8]])).A 0 1 =
      entry (M.mk [[(1 : ℚ), 2], [3, 4]]).A 0 1 + entry (M.mk [[(5 : ℚ), 6], [7, 8]]).A 0 1 ∧
    M.pow (M.mk [[(1 : ℚ), 2], [3, 4]]) 0 =
      some (M.mk (identityArr (M.mk [[(1 : ℚ), 2], [3, 4]]).A.length)) := by
  constructor
  · exact (ops_delegate.1 (M.mk [[1, 2], [3, 4]]) (M.mk [[5, 6], [7, 8]])
      (M.mk (zipGrid (· + ·) [[1, 2], [3, 4]] [[5, 6], [7, 8]])) rfl).2 0 1
      (by decide) (by decide)
  · exact (ops_delegate.2.2.2.2.2.2.1 (M.mk [[(1 : ℚ), 2], [3, 4]])
      (by decide) (by decide)).1

/-! ## Claim C6: concatenation -/

/-- C6: `vcat` of matrices with a common column count stacks the rows in
order, with shape (sum of row counts, common column count); `hcat` of
matrices with a common row count concatenates the rows entrywise, with
shape (common row count, sum of column counts). -/
theorem cat_spec :
    (∀ (ms : List M) (c : Nat), ms ≠ [] → (∀ m ∈ ms, rectB m.A = true) →
      (∀ m ∈ ms, colsA m.A = c) →
      ∃ z : M, M.vcat ms = some z ∧ z.A = (ms.map M.A).flatten ∧
        z.A.length = (ms.map fun m => m.A.length).sum ∧
        ∀ r ∈ z.A, r.length = c) ∧
    (∀ (ms : List M) (n : Nat), ms ≠ [] → (∀ m ∈ ms, rectB m.A = true) →
      (∀ m ∈ ms, m.A.length = n) →
      ∃ z : M, M.hcat ms = some z ∧ z.A.length = n ∧
        (∀ i : Nat, i < n → z.A.getD i [] = (ms.map fun m => m.A.getD i []).flatten) ∧
        (∀ i : Nat, i < n →
          (z.A.getD i []).length = (ms.map fun m => colsA m.A).sum)) := by
  constructor
  · intro ms c hne hrect hcols
    cases ms with
    | nil => exact absurd rfl hne
    | cons m0 rest =>
      have hguard : ((m0.A :: rest.map M.A).all fun b =>
          rectB b && (colsA b == colsA m0.A)) = true := by
        rw [List.all_eq_true]
        intro b hb
        rcases List.mem_cons.mp hb with rfl | hb2
        · simp [hrect m0 (List.mem_cons_self m0 rest)]
        · obtain ⟨m, hm, rfl⟩ := List.mem_map.mp hb2
          have h1 := hrect m (List.mem_cons_of_mem m0 hm)
          have h2 := hcols m (List.mem_cons_of_mem m0 hm)
          have h0 := hcols m0 (List.mem_cons_self m0 rest)
          simp [h1, h2, h0]
      refine ⟨M.mk ((m0 :: rest).map M.A).flatten, ?_, rfl, ?_, ?_⟩
      · show (npVstack ((m0 :: rest).map M.A)).map M.mk = _
        simp only [List.map_cons, npVstack]
        rw [if_pos hguard]
        rfl
      · show (((m0 :: rest).map M.A).flatten).length = _
        rw [List.length_flatten, List.map_map]
        rfl
      · intro r hr
        obtain ⟨l, hl, hrl⟩ := List.mem_flatten.mp hr
        obtain ⟨m, hm, rfl⟩ := List.mem_map.mp hl
        rw [rect_row_length (hrect m hm) hrl]
        exact hcols m hm
  · intro ms n hne hrect hrows
    cases ms with
    | nil => exact absurd rfl hne
    | cons m0 rest =>
      have h0 : m0.A.length = n := hrows m0 (List.mem_cons_self m0 rest)
      have hguard : ((m0.A :: rest.map M.A).all fun b =>
          rectB b && (b.length == m0.A.length)) = true := by
        rw [List.all_eq_true]
        intro b hb
        rcases List.mem_cons.mp hb with rfl | hb2
        · simp [hrect m0 (List.mem_cons_self m0 rest)]
        · obtain ⟨m, hm, rfl⟩ := List.mem_map.mp hb2
          have h1 := hrect m (List.mem_cons_of_mem m0 hm)
          have h2 := hrows m (List.mem_cons_of_mem m0 hm)
          simp [h1, h2, h0]
      have hz : M.hcat (m0 :: rest) = some (M.mk ((List.range m0.A.length).map fun i =>
          (((m0 :: rest).map M.A).map fun b => b.getD i []).flatten)) := by
        show (npHstack ((m0 :: rest).map M.A)).map M.mk = _
        simp only [List.map_cons, npHstack]
        rw [if_pos hguard]
        rfl
      refine ⟨_, hz, ?_, ?_, ?_⟩
      · simp [h0]
      · intro i hi
        rw [List.getD_eq_getElem?_getD, List.getElem?_map, List.getElem?_range (h0 ▸ hi)]
        simp only [Option.map_some', Option.getD_some]
        rw [List.map_map]
        rfl
      · intro i hi
        rw [List.getD_eq_getElem?_getD, List.getElem?_map, List.getElem?_range (h0 ▸ hi)]
        simp only [Option.map_some', Option.getD_some]
        rw [List.length_flatten, List.map_map, List.map_map]
        congr 1
        apply List.map_congr_left
        intro m hm
        show ((m.A.getD i []).length) = colsA m.A
        have hlen : i < m.A.length := by rw [hrows m hm]; exact hi
        rw [List.getD_eq_getElem m.A [] hlen]
        exact rect_row_length (hrect m hm) (List.getElem_mem hlen)

/-- Witness for C6: stacking `[[1, 2]]` and `[[3, 4]]`. -/
theorem cat_spec_witness :
    (∃ z : M, M.vcat [M.mk [[1, 2]], M.mk [[3, 4]]] = some z ∧
      z.A = ([M.mk [[(1 : ℚ), 2]], M.mk [[3, 4]]].map M.A).flatten ∧
      z.A.length = ([M.mk [[(1 : ℚ), 2]], M.mk [[3, 4]]].map fun m => m.A.length).sum ∧
      ∀ r ∈ z.A, r.length = 2) ∧
    (∃ z : M, M.hcat [M.mk [[1, 2]], M.mk [[3, 4]]] = some z ∧ z.A.length = 1 ∧
      (∀ i : Nat, i < 1 →
        z.A.getD i [] = ([M.mk [[(1 : ℚ), 2]], M.mk [[3, 4]]].map fun m => m.A.getD i []).flatten) ∧
      (∀ i : Nat, i < 1 →
        (z.A.getD i []).length = ([M.mk [[(1 : ℚ), 2]], M.mk [[3, 4]]].map fun m => colsA m.A).sum)) :=
  ⟨cat_spec.1 [M.mk [[1, 2]], M.mk [[3, 4]]] 2 (by simp) (by decide) (by decide),
   cat_spec.2 [M.mk [[1, 2]], M.mk [[3, 4]]] 1 (by simp) (by decide) (by decide)⟩

/-! ## Claim C7: failures are exactly the library's failures -/

/-- C7: the wrapper adds no failure handling of its own.  `A * B` raises
exactly when the library's matrix multiply raises (non-conformable shapes),
`inv` raises exactly when the library's inverse raises, `A / B` raises
exactly when the inverse-then-multiply chain raises; a successful result is
the library's result passed through unchanged; and through the heap, both a
failed and a successful operation leave every existing operand array
unmodified. -/
theorem error_propagation :
    (∀ x y : M, M.mul x y = none ↔ npMatmul x.A y.A = none) ∧
    (∀ x y : M, npMatmul x.A y.A = none ↔
      ¬(rectB x.A = true ∧ rectB y.A = true ∧ colsA x.A = y.A.length)) ∧
    (∀ x : M, M.inv x = none ↔ npInv x.A = none) ∧
    (∀ x y z : M, M.mul x y = some z → npMatmul x.A y.A = some z.A) ∧
    (∀ x z : M, M.inv x = some z → npInv x.A = some z.A) ∧
    (∀ x y : M, M.div x y = none ↔
      ((npInv y.A).bind fun bi => npMatmul x.A bi) = none) ∧
    (∀ (st : Store) (ra rb : Nat) (st2 : Store) (rc : Nat),
      mulSt st ra rb = some (st2, rc) → ∀ r : Nat, r < st.length → st2[r]? = st[r]?) ∧
    (∀ (st : Store) (ra : Nat) (st2 : Store) (rc : Nat),
      invSt st ra = some (st2, rc) → ∀ r : Nat, r < st.length → st2[r]? = st[r]?) := by
  refine ⟨?_, ?_, ?_, ?_, ?_, ?_, ?_, ?_⟩
  · intro x y
    unfold M.mul
    exact Option.map_eq_none'
  · intro x y
    unfold npMatmul
    split
    · next hc =>
      simp only [Bool.and_eq_true, beq_iff_eq] at hc
      simp [hc.1.1, hc.1.2, hc.2]
    · next hc =>
      simp only [Bool.and_eq_true, beq_iff_eq] at hc
      exact ⟨fun _ hcon => hc ⟨⟨hcon.1, hcon.2.1⟩, hcon.2.2⟩, fun _ => rfl⟩
  · intro x
    unfold M.inv
    exact Option.map_eq_none'
  · intro x y z h
    obtain ⟨c, hc, hzc⟩ := Option.map_eq_some'.mp h
    rw [hc, ← hzc]
  · intro x z h
    obtain ⟨c, hc, hzc⟩ := Option.map_eq_some'.mp h
    rw [hc, ← hzc]
  · intro x y
    unfold M.div
    exact Option.map_eq_none'
  · intro st ra rb st2 rc h r hr
    unfold mulSt at h
    obtain ⟨a, ha, b, hb, c, hc, hpair⟩ : ∃ a, st[ra]? = some a ∧ ∃ b, st[rb]? = some b ∧
        ∃ c, npMatmul a b = some c ∧ (st ++ [c], st.length) = (st2, rc) := by
      obtain ⟨a, ha, h1⟩ := Option.bind_eq_some.mp h
      obtain ⟨b, hb, h2⟩ := Option.bind_eq_some.mp h1
      obtain ⟨c, hc, h3⟩ := Option.map_eq_some'.mp h2
      exact ⟨a, ha, b, hb, c, hc, h3⟩
    obtain ⟨rfl, rfl⟩ := Prod.mk.injEq .. ▸ hpair
    · exact (List.getElem?_append_left hr)
  · intro st ra st2 rc h r hr
    unfold invSt at h
    obtain ⟨a, ha, h1⟩ := Option.bind_eq_some.mp h
    obtain ⟨c, hc, h3⟩ := Option.map_eq_some'.mp h1
    obtain ⟨rfl, rfl⟩ : st ++ [c] = st2 ∧ st.length = rc := Prod.mk.injEq .. ▸ h3
    exact (List.getElem?_append_left hr)

/-- Witness for C7: a singular inverse and a non-conformable product both
fail, and a successful store-level multiply leaves the operands in place. -/
theorem error_propagation_witness :
    M.inv (M.mk [[0]]) = none ∧
    M.mul (M.mk [[1, 2]]) (M.mk [[1, 2]]) = none ∧
    ∀ st2 : Store, ∀ rc : Nat,
      mulSt [[[1]], [[2]]] 0 1 = some (st2, rc) → st2[0]? = [[[(1 : ℚ)]], [[2]]][0]? := by
  refine ⟨?_, ?_, ?_⟩
  · exact (error_propagation.2.2.1 (M.mk [[0]])).mpr (by decide)
  · exact (error_propagation.1 (M.mk [[1, 2]]) (M.mk [[1, 2]])).mpr (by decide)
  · intro st2 rc h
    exact error_propagation.2.2.2.2.2.2.1 [[[1]], [[2]]] 0 1 st2 rc h 0 (by decide)

/-! ## Claim C8: constructing from an `M` copies the data -/

/-- C8: `M(B)` for an existing `M` copies the underlying array into a fresh
heap cell: the new reference differs from `B`'s, it initially holds `B`'s
contents, and `__setitem__` on either matrix never changes the other. -/
theorem copy_independent :
    ∀ (st : Store) (rb : Nat), rb < st.length →
      (initFromM st rb).2 ≠ rb ∧
      (initFromM st rb).1[(initFromM st rb).2]? = st[rb]? ∧
      (initFromM st rb).1[rb]? = st[rb]? ∧
      (∀ (i j : Int) (v : ℚ) (st3 : Store),
        setItemSt (initFromM st rb).1 (initFromM st rb).2 i j v = some st3 →
        st3[rb]? = st[rb]?) ∧
      (∀ (i j : Int) (v : ℚ) (st3 : Store),
        setItemSt (initFromM st rb).1 rb i j v = some st3 →
        st3[(initFromM st rb).2]? = (initFromM st rb).1[(initFromM st rb).2]?) := by
  intro st rb hrb
  simp only [initFromM]
  have hne : st.length ≠ rb := by omega
  have hcopy : (st ++ [st.getD rb []])[st.length]? = st[rb]? := by
    rw [List.getElem?_concat_length, List.getD_eq_getElem st [] hrb,
      (List.getElem?_eq_some_getElem_iff st rb hrb).mpr trivial]
  have hleft : (st ++ [st.getD rb []])[rb]? = st[rb]? := List.getElem?_append_left hrb
  refine ⟨hne, hcopy, hleft, ?_, ?_⟩
  · intro i j v st3 h
    unfold setItemSt at h
    obtain ⟨a, ha, h1⟩ := Option.bind_eq_some.mp h
    obtain ⟨a2, ha2, h3⟩ := Option.map_eq_some'.mp h1
    rw [← h3, List.getElem?_set_ne hne]
    exact hleft
  · intro i j v st3 h
    unfold setItemSt at h
    obtain ⟨a, ha, h1⟩ := Option.bind_eq_some.mp h
    obtain ⟨a2, ha2, h3⟩ := Option.map_eq_some'.mp h1
    rw [← h3, List.getElem?_set_ne (by omega : rb ≠ st.length)]

/-- Witness for C8: copying the first array of a two-cell heap and writing
through either reference. -/
theorem copy_independent_witness :
    (initFromM [[[1]], [[2]]] 0).2 ≠ 0 ∧
    (initFromM [[[(1 : ℚ)]], [[2]]] 0).1[(initFromM [[[(1 : ℚ)]], [[2]]] 0).2]? =
      [[[(1 : ℚ)]], [[2]]][0]? ∧
    ∀ (st3 : Store),
      setItemSt (initFromM [[[1]], [[2]]] 0).1 (initFromM [[[1]], [[2]]] 0).2 0 0 5 =
        some st3 → st3[0]? = [[[(1 : ℚ)]], [[2]]][0]? := by
  have h := copy_independent [[[1]], [[2]]] 0 (by decide)
  exact ⟨h.1, h.2.1, fun st3 hset => h.2.2.2.1 0 0 5 st3 hset⟩

/-! ## Claim C10: everything is stored as floats -/

theorem npConj_id (a : Arr) : npConj a = a := by
  unfold npConj conjFloat
  simp [List.map_id]

/-- C10: a matrix built from non-`M` data stores floats: complex entries make
construction fail (so no complex value is ever stored), integer entries are
coerced into the float carrier (`mat("1 2")(1,1)` is the float 1.0), and the
conjugate transpose `H` coincides with the plain transpose `T`. -/
theorem float_dtype_spec :
    (∀ (data : List (List PyNum)) (row : List PyNum) (re im : ℚ),
      row ∈ data → PyNum.complex re im ∈ row → M.initData data = none) ∧
    (∀ x : M, M.H x = M.T x) ∧
    (∀ n : Int, npFloatOf (.int n) = some ((n : ℚ))) ∧
    M.initData [[.int 1, .int 2]] = some (M.mk [[1, 2]]) ∧
    ((mat "1 2".toList).map fun a => M.call (M.mk a) [.int 1, .int 1]) =
      some (some (.scalar 1)) := by
  refine ⟨?_, ?_, fun n => rfl, by decide, by decide⟩
  · intro data row re im hrow hc
    have hr : optMapM npFloatOf row = none :=
      optMapM_none_of_mem hc rfl
    have hd : optMapM (optMapM npFloatOf) data = none :=
      optMapM_none_of_mem hrow hr
    unfold M.initData
    rw [hd]
    rfl
  · intro x
    unfold M.H M.T
    rw [npConj_id]

/-- Witness for C10: constructing from data containing `2+3i` fails. -/
theorem float_dtype_spec_witness :
    M.initData [[PyNum.int 1, PyNum.complex 2 3]] = none :=
  float_dtype_spec.1 [[PyNum.int 1, PyNum.complex 2 3]] [PyNum.int 1, PyNum.complex 2 3]
    2 3 (by simp) (by simp)

end Matlabpy
